import Mathlib

/-!
Verification of the credential & token lifecycle core of an SMTP-to-Gmail
OAuth relay.  The TypeScript sources are shallowly embedded below:

* `src/utils/crypto.ts` — `encrypt` / `decrypt` / `isEncrypted` over
  AES-256-GCM envelopes of the form `ivHex:authTagHex:ciphertextHex`.
  The AES-256-GCM primitive itself is library code (Node `crypto`), not
  repository code; it is modelled here as an ideal authenticated stream
  cipher: a keystream XOR for confidentiality plus a polynomial
  authentication tag over a prime field (mirroring GCM's GHASH, whose
  single-block differences never collide when the hash key is non-zero).
  Everything the repository itself does — envelope assembly, hex
  encoding, the `split(':')` field-count check, tag comparison, UTF-8
  text handling — is embedded faithfully.
* `src/db/...` account repository — `createAccount`, `verifyApiKey`,
  `updateApiKey`, `getDecryptedRefreshToken`, `getDecryptedAccessToken`
  over an explicit database state.  `bcrypt` is likewise library code;
  it is modelled as a salted keyed encoding with bcrypt's verification
  contract (a hash verifies exactly the password it was produced from)
  and bcrypt's `$2…$` shape.
* `src/gmail/client.ts` — `isTokenExpired` and the cached-vs-refresh
  decision of `getValidAccessToken`.
* the SMTP Auth Bridge — the `onAuth` authentication callback; its
  source file is not in the staged tree, so it is modelled from the
  spec's §4.4 wording, with the flow and messages its unit tests pin
  (`getAccountByEmail` then `verifyApiKey`).
* `src/oauth/routes.ts` — the `/auth/callback` registration flow.

JavaScript peculiarities that the sources rely on are embedded
explicitly: string truthiness (`""` is falsy), Node's case-insensitive
hex decoding, and `String.prototype.includes` for the scope check.
-/

namespace SmtpRelay

/-! ## Bytes and hex encoding

Node's `Buffer.toString('hex')` produces lowercase hex;
`Buffer.from(str, 'hex')` accepts both cases and stops at the first
character that is not a hex digit (dropping a trailing lone digit). -/

/-- All entries of a byte list are actual bytes. -/
def ValidBytes (bs : List Nat) : Prop := ∀ b ∈ bs, b < 256

/-- Lowercase hex digit for a nibble, as produced by `toString('hex')`. -/
def hexDigitChar (n : Nat) : Char :=
  if n < 10 then Char.ofNat (48 + n) else Char.ofNat (87 + n)

/-- Numeric value of a hex digit, case-insensitive as in Node's decoder;
`none` for a non-hex character. -/
def hexVal? (c : Char) : Option Nat :=
  if 48 ≤ c.toNat ∧ c.toNat ≤ 57 then some (c.toNat - 48)
  else if 97 ≤ c.toNat ∧ c.toNat ≤ 102 then some (c.toNat - 87)
  else if 65 ≤ c.toNat ∧ c.toNat ≤ 70 then some (c.toNat - 55)
  else none

/-- Two lowercase hex characters for one byte. -/
def hexEncodeByte (b : Nat) : List Char :=
  [hexDigitChar (b / 16), hexDigitChar (b % 16)]

/-- Lowercase hex encoding of a byte list (`Buffer.toString('hex')`). -/
def hexEncode (bs : List Nat) : List Char :=
  (bs.map hexEncodeByte).flatten

/-- Node-style hex decoding (`Buffer.from(str, 'hex')`): consume the
string two characters at a time, stopping at the first invalid pair. -/
def hexDecodePairs : List Char → List Nat
  | c1 :: c2 :: rest =>
    match hexVal? c1, hexVal? c2 with
    | some hi, some lo => (16 * hi + lo) :: hexDecodePairs rest
    | _, _ => []
  | _ => []

/-! ## Splitting on a separator character

Mirrors JavaScript `String.prototype.split(sep)` for a one-character
separator: always returns at least one (possibly empty) segment. -/

/-- The function `splitCh sep l` is JavaScript's `l.split(sep)` on character lists. -/
def splitCh (sep : Char) : List Char → List (List Char)
  | [] => [[]]
  | c :: rest =>
    if c = sep then [] :: splitCh sep rest
    else
      match splitCh sep rest with
      | [] => [[c]]
      | h :: t => (c :: h) :: t

/-- A deterministic byte-valued function of key material and position,
standing in for the AES-CTR keystream inside GCM. -/
def mix (key : List Nat) (seed : Nat) : Nat :=
  key.foldl (fun a b => (a * 131 + b + 1) % 65536) seed

/-- Keystream byte `i` of the modelled cipher for `(key, iv)`. -/
def ks (key iv : List Nat) (i : Nat) : Nat :=
  (mix key (mix iv i) + i * 7 + 3) % 256

/-- XOR a byte list against a keystream, starting at position `i`
(CTR-mode encryption and decryption are this same operation). -/
def ctrXor (f : Nat → Nat) : Nat → List Nat → List Nat
  | _, [] => []
  | i, b :: rest => (b ^^^ f i) :: ctrXor f (i + 1) rest

/-! ## Fixed-width big-endian byte serialization (for the 16-byte tag) -/

def natToBytes : Nat → Nat → List Nat
  | 0, _ => []
  | len + 1, n => natToBytes len (n / 256) ++ [n % 256]

def natFromBytes (bs : List Nat) : Nat :=
  bs.foldl (fun a b => a * 256 + b) 0

/-! ## The authentication-tag layer of the AES-256-GCM model

GCM authenticates the ciphertext with a polynomial MAC (GHASH) over a
field, keyed by a never-zero hash key; a change to any single block
shifts the tag by `δ · h^k ≠ 0`.  The model keeps exactly that algebra,
over the prime field `ZMod 257` with bytes as coefficients, and emits
the canonical 16-byte (therefore 32-hex-character) tag GCM defaults to. -/

instance : Fact (Nat.Prime 257) := ⟨by norm_num⟩

/-- GHASH key of the modelled cipher; in `[1, 256]`, hence never `0`. -/
def hKey (key : List Nat) : ZMod 257 := ((mix key 17 % 256) + 1 : Nat)

/-- Horner-form polynomial MAC over the ciphertext bytes. -/
def polyMac (h : ZMod 257) : List Nat → ZMod 257
  | [] => 0
  | b :: rest => polyMac h rest * h + (b : ZMod 257)

/-- Tag field element for `(key, iv, ciphertext)`. -/
def tagField (key iv ct : List Nat) : ZMod 257 :=
  polyMac (hKey key) ct * hKey key + (mix key (mix iv 5) : Nat) + (ct.length : ZMod 257)

/-- The 16-byte authentication tag of the modelled AES-256-GCM. -/
def tagBytesOf (key iv ct : List Nat) : List Nat :=
  natToBytes 16 (tagField key iv ct).val

/-- UTF-8 encoding of one Unicode scalar value. -/
def utf8EncodeChar (c : Char) : List Nat :=
  let n := c.toNat
  if n < 128 then [n]
  else if n < 2048 then [192 + n / 64, 128 + n % 64]
  else if n < 65536 then [224 + n / 4096, 128 + n / 64 % 64, 128 + n % 64]
  else [240 + n / 262144, 128 + n / 4096 % 64, 128 + n / 64 % 64, 128 + n % 64]

/-- UTF-8 encoding of a character list. -/
def utf8Encode (s : List Char) : List Nat :=
  (s.map utf8EncodeChar).flatten

/-- The U+FFFD replacement character emitted for invalid sequences. -/
def replChar : Char := Char.ofNat 65533

/-- Streaming lossy UTF-8 decoder: `pending` is the number of
continuation bytes still expected, `acc` the scalar value accumulated so
far.  Well-formed sequences decode to their scalar value; malformed
input yields U+FFFD instead of an error, as Node's string conversion
does. -/
def utf8DecSM : Nat → Nat → List Nat → List Char
  | p, _, [] => if p = 0 then [] else [replChar]
  | 0, _, b :: rest =>
    if b < 128 then Char.ofNat b :: utf8DecSM 0 0 rest
    else if 194 ≤ b ∧ b < 224 then utf8DecSM 1 (b - 192) rest
    else if 224 ≤ b ∧ b < 240 then utf8DecSM 2 (b - 224) rest
    else if 240 ≤ b ∧ b < 245 then utf8DecSM 3 (b - 240) rest
    else replChar :: utf8DecSM 0 0 rest
  | p + 1, acc, b :: rest =>
    if 128 ≤ b ∧ b < 192 then
      if p = 0 then Char.ofNat (acc * 64 + (b - 128)) :: utf8DecSM 0 0 rest
      else utf8DecSM p (acc * 64 + (b - 128)) rest
    else replChar :: utf8DecSM 0 0 rest

/-- Lossy UTF-8 decoding of a byte list. -/
def utf8DecodeBytes (l : List Nat) : List Char := utf8DecSM 0 0 l

/-- Model of `encrypt(plaintext)`: encrypt UTF-8 bytes under `(key, iv)` and emit
the envelope `iv:authTag:ciphertext` in hex.  The `iv` argument stands
for the 12 random bytes drawn by `crypto.randomBytes(IV_LENGTH)`. -/
def encrypt (key iv : List Nat) (plaintext : String) : String :=
  let pt := utf8Encode plaintext.data
  let encrypted := ctrXor (ks key iv) 0 pt
  let authTag := tagBytesOf key iv encrypted
  String.mk (hexEncode iv ++ ':' :: (hexEncode authTag ++ ':' :: hexEncode encrypted))

inductive CryptoError where
  | invalidFormat
  | tamperedOrCorrupt
deriving DecidableEq, Repr

/-- Model of `decrypt(encryptedData)`: split on `':'`, fail unless exactly three
segments, then authenticate and decrypt; a tag mismatch is the model of
`decipher.final()` throwing. -/
def decrypt (key : List Nat) (encryptedData : String) : Except CryptoError String :=
  match splitCh ':' encryptedData.data with
  | [ivHex, authTagHex, ciphertext] =>
    let iv := hexDecodePairs ivHex
    let authTag := hexDecodePairs authTagHex
    let ct := hexDecodePairs ciphertext
    if authTag = tagBytesOf key iv ct then
      .ok (String.mk (utf8DecodeBytes (ctrXor (ks key iv) 0 ct)))
    else .error .tamperedOrCorrupt
  | _ => .error .invalidFormat

/-- Model of `isEncrypted(value)`: structural check — three segments and a
24-hex-character first segment. -/
def isEncrypted (value : String) : Bool :=
  if value.data.isEmpty then false
  else
    match splitCh ':' value.data with
    | [p0, _, _] => p0.length == 24
    | _ => false

/-! ## bcrypt model

`bcrypt.hashSync(pw, BCRYPT_ROUNDS)` and `bcrypt.compareSync(pw, hash)`
are library code.  The model keeps bcrypt's observable contract — the
hash starts with `$2`, embeds its salt, and `compareSync` accepts
exactly the password the hash was derived from — by storing a
salt-keyed digest of the password.  (Real bcrypt is one-way; nothing
below relies on recovering a password from a hash.) -/

/-- Salt-keyed digest stream for the bcrypt model. -/
def bks (salt : List Nat) (i : Nat) : Nat := (mix salt (i * 37) + 11) % 256

/-- Model of `bcrypt.hashSync(pw, 10)` with explicit random `salt`:
`$2b$10$<saltHex>$<digestHex>`. -/
def bcryptHashModel (salt : List Nat) (pw : String) : String :=
  String.mk ('$' :: ('2' :: 'b' :: '$' ::
    ('1' :: '0' :: '$' ::
      (hexEncode salt ++ '$' :: hexEncode (ctrXor (bks salt) 0 (utf8Encode pw.data))))))

/-- Model of `bcrypt.compareSync(pw, hash)`: parse the salt out of the
hash, recompute the digest for `pw`, compare. -/
def bcryptCompareModel (pw : String) (h : String) : Bool :=
  match splitCh '$' h.data with
  | [p0, p1, p2, saltHex, digest] =>
    decide (p0 = [] ∧ p1 = ['2', 'b'] ∧ p2 = ['1', '0'] ∧
      digest = hexEncode (ctrXor (bks (hexDecodePairs saltHex)) 0 (utf8Encode pw.data)))
  | _ => false

/-- The check `account.api_key.startsWith('$2')`. -/
def startsWithDollar2 (s : String) : Bool :=
  match s.data with
  | '$' :: '2' :: _ => true
  | _ => false

/-! ## The account store (`src/db`)

The concatenated `src/db/index.ts` module: schema
`accounts(id, email UNIQUE, refresh_token, access_token, token_expiry,
api_key UNIQUE, created_at, updated_at)` plus the repository operations.
The database is an explicit row list; `salt`/`iv` arguments stand for
the randomness drawn by bcrypt and `crypto.randomBytes`. -/

structure Account where
  id : Nat
  email : String
  refresh_token : String
  access_token : Option String
  token_expiry : Option Int
  api_key : String
  created_at : Int
  updated_at : Int
deriving DecidableEq, Repr

structure DB where
  rows : List Account
  nextId : Nat
deriving DecidableEq, Repr

def emptyDB : DB := ⟨[], 1⟩

inductive DbError where
  | duplicateAccount
  | accountNotFound
deriving DecidableEq, Repr

structure CreateAccountData where
  email : String
  refreshToken : String
  apiKey : String
deriving DecidableEq, Repr

/-- Model of `getAccountByEmail`: `SELECT * FROM accounts WHERE email = ?`. -/
def getAccountByEmail (db : DB) (email : String) : Option Account :=
  db.rows.find? (fun r => r.email = email)

/-- Model of the account repository's `getAccountByApiKey`:
`SELECT * FROM accounts WHERE api_key = ?`. -/
def getAccountByApiKey (db : DB) (apiKey : String) : Option Account :=
  db.rows.find? (fun r => r.api_key = apiKey)

/-- Model of `createAccount`: bcrypt-hash the API key, encrypt the refresh token,
insert the row; the schema's UNIQUE constraints on `email` and
`api_key` make a collision throw (`DuplicateAccount`). -/
def createAccount (key salt iv : List Nat) (now : Int) (db : DB)
    (data : CreateAccountData) : Except DbError (DB × Account) :=
  let hashedApiKey := bcryptHashModel salt data.apiKey
  let encryptedRefreshToken := encrypt key iv data.refreshToken
  if db.rows.any (fun r => r.email = data.email ∨ r.api_key = hashedApiKey) then
    .error .duplicateAccount
  else
    let row : Account :=
      ⟨db.nextId, data.email, encryptedRefreshToken, none, none, hashedApiKey, now, now⟩
    .ok (⟨db.rows ++ [row], db.nextId + 1⟩, row)

/-- Model of `verifyApiKey`: look up by email, then verify against the bcrypt
hash — or fall back to plain-text comparison for legacy rows whose
stored key does not start with `$2`. -/
def verifyApiKey (db : DB) (email apiKey : String) : Option Account :=
  match getAccountByEmail db email with
  | none => none
  | some account =>
    if startsWithDollar2 account.api_key then
      if bcryptCompareModel apiKey account.api_key then some account else none
    else
      if account.api_key = apiKey then some account else none

/-- Model of `getDecryptedRefreshToken`: decrypt when the stored value looks like
an envelope, otherwise return it as-is (legacy fallback). -/
def getDecryptedRefreshToken (key : List Nat) (account : Account) :
    Except CryptoError String :=
  if isEncrypted account.refresh_token then decrypt key account.refresh_token
  else .ok account.refresh_token

/-- Model of `getDecryptedAccessToken`: `null` when unset (JavaScript treats the
empty string as unset too), decrypt when the value looks like an
envelope, otherwise return as-is (legacy fallback). -/
def getDecryptedAccessToken (key : List Nat) (account : Account) :
    Except CryptoError (Option String) :=
  match account.access_token with
  | none => .ok none
  | some t =>
    if t = "" then .ok none
    else if isEncrypted t then (decrypt key t).map some
    else .ok (some t)

/-- Model of `updateAccessToken` (a.k.a. `updateTokens`): encrypt and store a new
access token and expiry; `AccountNotFound` when no row changes. -/
def updateAccessToken (key iv : List Nat) (now : Int) (db : DB)
    (email accessToken : String) (tokenExpiry : Int) : Except DbError DB :=
  let encryptedAccessToken := encrypt key iv accessToken
  if db.rows.all (fun r => r.email ≠ email) then .error .accountNotFound
  else
    .ok ⟨db.rows.map (fun r =>
      if r.email = email then
        { r with access_token := some encryptedAccessToken,
                 token_expiry := some tokenExpiry, updated_at := now }
      else r), db.nextId⟩

/-- Row transformation of `updateApiKey`'s SQL `UPDATE` statement. -/
def updApiKeyRow (salt : List Nat) (now : Int) (email apiKey : String) (r : Account) :
    Account :=
  if r.email = email then { r with api_key := bcryptHashModel salt apiKey, updated_at := now }
  else r

/-- Model of `updateApiKey`: bcrypt-hash the new key and overwrite the stored
hash; `AccountNotFound` when no row changes. -/
def updateApiKey (salt : List Nat) (now : Int) (db : DB)
    (email apiKey : String) : Except DbError DB :=
  if db.rows.all (fun r => r.email ≠ email) then .error .accountNotFound
  else .ok ⟨db.rows.map (updApiKeyRow salt now email apiKey), db.nextId⟩

/-! ## Token lifecycle (`src/gmail/client.ts`) -/

/-- Model of `isTokenExpired(expiryTimestamp)`: a null expiry is expired; else
expired when `now >= expiry - 5*60`. -/
def isTokenExpired (nowInSeconds : Int) (expiryTimestamp : Option Int) : Bool :=
  match expiryTimestamp with
  | none => true
  | some e => nowInSeconds ≥ e - 5 * 60

/-- JavaScript truthiness of `account.access_token`
(`null` and `""` are falsy). -/
def truthyStr : Option String → Bool
  | none => false
  | some t => t ≠ ""

/-- Which collaborator `getValidAccessToken` ends up using. -/
inductive TokenPath where
  | usedCache (accessToken : String)
  | invokedRefresh (refreshTokenPlain : String)
deriving DecidableEq, Repr

inductive TokenError where
  | accountNotFound
  | cryptoError (e : CryptoError)
deriving DecidableEq, Repr

/-- Decision core of `getValidAccessToken(userEmail)`: return the
decrypted cached token when one is present, unexpired and truthy;
otherwise decrypt the refresh token and invoke the external refresh
collaborator.  (The refresh network call and the subsequent
`updateTokens` persistence lie beyond the decision modelled here.) -/
def getValidAccessToken (key : List Nat) (now : Int) (db : DB) (userEmail : String) :
    Except TokenError TokenPath :=
  match getAccountByEmail db userEmail with
  | none => .error .accountNotFound
  | some account =>
    let doRefresh : Except TokenError TokenPath :=
      match getDecryptedRefreshToken key account with
      | .error e => .error (.cryptoError e)
      | .ok rt => .ok (.invokedRefresh rt)
    if truthyStr account.access_token && !isTokenExpired now account.token_expiry then
      match getDecryptedAccessToken key account with
      | .error e => .error (.cryptoError e)
      | .ok (some d) => if d = "" then doRefresh else .ok (.usedCache d)
      | .ok none => doRefresh
    else doRefresh

/-! ## SMTP authentication (the SMTP Auth Bridge) -/

/-- JavaScript `hay.includes(needle)` on character lists. -/
def strIncludesAux (needle : List Char) : List Char → Bool
  | [] => needle.isEmpty
  | c :: rest => needle.isPrefixOf (c :: rest) || strIncludesAux needle rest

/-- JavaScript `hay.includes(needle)`. -/
def strIncludes (hay needle : String) : Bool :=
  strIncludesAux needle.data hay.data

def GMAIL_SEND_SCOPE : String := "https://www.googleapis.com/auth/gmail.send"

structure TokenResponse where
  accessToken : String
  refreshToken : String
  expiryDate : Int
  scope : String
deriving DecidableEq, Repr

structure CallbackParams where
  code : Option String
  error : Option String
  state : Option String
deriving DecidableEq, Repr

inductive CallbackOutcome where
  | cancelled (error : String)
  | noCode
  | missingScope
  | regenNotFound (email : String)
  | regenerated (email newApiKey : String)
  | alreadyRegistered (email : String)
  | registered (email apiKey : String)
  | pageExpired (message : String)
  | failure (message : String)
deriving DecidableEq, Repr

/-- Result of one `/auth/callback` request: the page category rendered,
the revoke calls issued, and the resulting database. -/
structure CallbackResult where
  outcome : CallbackOutcome
  revoked : List String
  db : DB
deriving DecidableEq, Repr

/-- Model of `revokeToken(accessToken)`: the body wraps its `fetch` in
`try/catch` and never rethrows, so the call never fails regardless of
whether the HTTP revocation (`succeeded`) worked. -/
def revokeToken (_succeeded : Bool) : Except String Unit := .ok ()

/-- The catch-block classification of thrown errors: an expired/reused
authorization code renders the "page expired" screen, anything else the
generic failure screen. -/
def isCodeExpiredMsg (msg : String) : Bool :=
  let lower := msg.toLower
  strIncludes lower "invalid_grant" || strIncludes lower "code was already redeemed" ||
    strIncludes lower "code has expired" || strIncludes lower "bad request"

def errOutcome (msg : String) : CallbackOutcome :=
  if isCodeExpiredMsg msg then .pageExpired msg else .failure msg

/-- The `/auth/callback` handler.  External collaborators
(`exchangeCodeForTokens`, `getUserEmail`) and the randomness
(`salt`, `iv`, `newApiKey = 'sk_' + nanoid(32)`) are parameters;
`revokeOk` is the outcome of the revocation HTTP call. -/
def handleCallback (key salt iv : List Nat) (now : Int) (newApiKey : String) (db : DB)
    (exchangeCodeForTokens : String → Except String TokenResponse)
    (getUserEmail : String → Except String String)
    (revokeOk : Bool) (params : CallbackParams) : CallbackResult :=
  match params.error with
  | some e => ⟨.cancelled e, [], db⟩
  | none =>
    match params.code with
    | none => ⟨.noCode, [], db⟩
    | some code =>
      match exchangeCodeForTokens code with
      | .error msg => ⟨errOutcome msg, [], db⟩
      | .ok tokens =>
        if !strIncludes tokens.scope GMAIL_SEND_SCOPE then
          match revokeToken revokeOk with
          | .ok _ => ⟨.missingScope, [tokens.accessToken], db⟩
          | .error msg => ⟨errOutcome msg, [tokens.accessToken], db⟩
        else
          match getUserEmail tokens.accessToken with
          | .error msg => ⟨errOutcome msg, [], db⟩
          | .ok email =>
            let isRegenerate := params.state = some "regenerate"
            match getAccountByEmail db email with
            | none =>
              if isRegenerate then ⟨.regenNotFound email, [], db⟩
              else
                match createAccount key salt iv now db ⟨email, tokens.refreshToken, newApiKey⟩ with
                | .ok (db', _) => ⟨.registered email newApiKey, [], db'⟩
                | .error _ => ⟨.failure "duplicate account", [], db⟩
            | some _ =>
              if isRegenerate then
                match updateApiKey salt now db email newApiKey with
                | .ok db' => ⟨.regenerated email newApiKey, [], db'⟩
                | .error _ => ⟨.failure "account not found", [], db⟩
              else ⟨.alreadyRegistered email, [], db⟩

/-! ## Concrete instances used by witnesses and counterexamples -/

/-- A concrete 32-byte key standing for `config.encryptionKey`. -/
def cKey : List Nat := List.range 32

/-- A concrete 12-byte IV. -/
def cIv : List Nat := [0, 1, 2, 3, 4, 5, 6, 7, 8, 9, 10, 11]

/-- A second, distinct concrete 12-byte IV. -/
def cIv2 : List Nat := [1, 1, 2, 3, 4, 5, 6, 7, 8, 9, 10, 11]

/-- A concrete bcrypt salt. -/
def cSalt : List Nat := [3, 7]

/-- One `createAccount` call together with the randomness it draws. -/
structure CreateCall where
  data : CreateAccountData
  salt : List Nat
  iv : List Nat
  now : Int
deriving DecidableEq, Repr

/-- Run a sequence of `createAccount` calls; a failed insert (duplicate)
leaves the store unchanged. -/
def runCreates (key : List Nat) (db : DB) (calls : List CreateCall) : DB :=
  calls.foldl (fun db c =>
    match createAccount key c.salt c.iv c.now db c.data with
    | .ok (db', _) => db'
    | .error _ => db) db

/-- Account with a validly encrypted access token that still has
exactly 300 seconds of life left at `now = 1000`. -/
def cAcct3a : Account :=
  ⟨1, "a@b.c", encrypt cKey cIv2 "rt", some (encrypt cKey cIv "tok"), some 1300, "k", 0, 0⟩

/-- Account whose cached access token decrypts to the empty string and
expires 400 seconds after `now = 1000`. -/
def cAcct3b : Account :=
  ⟨1, "a@b.c", encrypt cKey cIv2 "rt", some (encrypt cKey cIv ""), some 1400, "k", 0, 0⟩

/-- Account with a validly encrypted access token good for another 400
seconds at `now = 1000`. -/
def cAcct3c : Account :=
  ⟨1, "a@b.c", encrypt cKey cIv2 "rt", some (encrypt cKey cIv "tok"), some 1400, "k", 0, 0⟩

theorem hexVal?_hexDigitChar {n : Nat} (h : n < 16) :
    hexVal? (hexDigitChar n) = some n := by
  interval_cases n <;> decide

theorem hexDigitChar_ne_colon {n : Nat} (h : n < 16) : hexDigitChar n ≠ ':' := by
  interval_cases n <;> decide

theorem hexDigitChar_ne_dollar {n : Nat} (h : n < 16) : hexDigitChar n ≠ '$' := by
  interval_cases n <;> decide

theorem hexVal?_ne_colon {c : Char} {v : Nat} (h : hexVal? c = some v) : c ≠ ':' := by
  intro hc; subst hc; simp [hexVal?] at h

theorem hexEncode_nil : hexEncode [] = [] := rfl

theorem hexEncode_cons (b : Nat) (bs : List Nat) :
    hexEncode (b :: bs) = hexDigitChar (b / 16) :: hexDigitChar (b % 16) :: hexEncode bs := by
  simp [hexEncode, hexEncodeByte]

theorem mem_hexEncode_ne_colon {bs : List Nat} (hv : ValidBytes bs) :
    ∀ c ∈ hexEncode bs, c ≠ ':' := by
  induction bs with
  | nil => simp [hexEncode_nil]
  | cons b bs ih =>
    have hb : b < 256 := hv b (List.mem_cons_self b bs)
    have hv' : ValidBytes bs := fun x hx => hv x (List.mem_cons_of_mem b hx)
    intro c hc
    rw [hexEncode_cons] at hc
    simp only [List.mem_cons] at hc
    rcases hc with rfl | rfl | hc
    · exact hexDigitChar_ne_colon (Nat.div_lt_of_lt_mul (by omega))
    · exact hexDigitChar_ne_colon (Nat.mod_lt b (by omega))
    · exact ih hv' c hc

theorem mem_hexEncode_ne_dollar {bs : List Nat} (hv : ValidBytes bs) :
    ∀ c ∈ hexEncode bs, c ≠ '$' := by
  induction bs with
  | nil => simp [hexEncode_nil]
  | cons b bs ih =>
    have hb : b < 256 := hv b (List.mem_cons_self b bs)
    have hv' : ValidBytes bs := fun x hx => hv x (List.mem_cons_of_mem b hx)
    intro c hc
    rw [hexEncode_cons] at hc
    simp only [List.mem_cons] at hc
    rcases hc with rfl | rfl | hc
    · exact hexDigitChar_ne_dollar (Nat.div_lt_of_lt_mul (by omega))
    · exact hexDigitChar_ne_dollar (Nat.mod_lt b (by omega))
    · exact ih hv' c hc

/-- Round trip: decoding a lowercase hex encoding returns the bytes. -/
theorem hexDecodePairs_hexEncode {bs : List Nat} (hv : ValidBytes bs) :
    hexDecodePairs (hexEncode bs) = bs := by
  induction bs with
  | nil => rfl
  | cons b bs ih =>
    have hb : b < 256 := hv b (List.mem_cons_self b bs)
    have hv' : ValidBytes bs := fun x hx => hv x (List.mem_cons_of_mem b hx)
    rw [hexEncode_cons, hexDecodePairs,
      hexVal?_hexDigitChar (Nat.div_lt_of_lt_mul (by omega)),
      hexVal?_hexDigitChar (Nat.mod_lt b (by omega)), ih hv']
    show (16 * (b / 16) + b % 16) :: bs = b :: bs
    rw [Nat.div_add_mod]

theorem hexEncode_injOn {bs bs' : List Nat} (hv : ValidBytes bs) (hv' : ValidBytes bs')
    (h : hexEncode bs = hexEncode bs') : bs = bs' := by
  rw [← hexDecodePairs_hexEncode hv, ← hexDecodePairs_hexEncode hv', h]

theorem hexEncode_length (bs : List Nat) : (hexEncode bs).length = 2 * bs.length := by
  induction bs with
  | nil => rfl
  | cons b bs ih => rw [hexEncode_cons]; simp [ih]; omega

theorem hexDecodePairs_length_le : ∀ l : List Char, (hexDecodePairs l).length ≤ l.length
  | [] => by simp [hexDecodePairs]
  | [_] => by simp [hexDecodePairs]
  | c1 :: c2 :: rest => by
    have ih := hexDecodePairs_length_le rest
    cases h1 : hexVal? c1 <;> cases h2 : hexVal? c2 <;>
        simp only [hexDecodePairs, h1, h2, List.length_cons, List.length_nil] <;>
      omega

theorem splitCh_ne_nil (sep : Char) (l : List Char) : splitCh sep l ≠ [] := by
  induction l with
  | nil => simp [splitCh]
  | cons c rest ih =>
    rw [splitCh]
    split
    · simp
    · split <;> simp

/-- A separator-free list splits into itself. -/
theorem splitCh_of_not_mem {sep : Char} {l : List Char} (h : ∀ c ∈ l, c ≠ sep) :
    splitCh sep l = [l] := by
  induction l with
  | nil => rfl
  | cons c rest ih =>
    have hc : c ≠ sep := h c (List.mem_cons_self c rest)
    rw [splitCh, if_neg hc, ih (fun x hx => h x (List.mem_cons_of_mem c hx))]

/-- Splitting at an explicit separator occurrence after a separator-free
prefix peels off that prefix. -/
theorem splitCh_append_sep {sep : Char} {a : List Char} (b : List Char)
    (h : ∀ c ∈ a, c ≠ sep) :
    splitCh sep (a ++ sep :: b) = a :: splitCh sep b := by
  induction a with
  | nil => simp [splitCh]
  | cons c rest ih =>
    have hc : c ≠ sep := h c (List.mem_cons_self c rest)
    have heq := ih (fun x hx => h x (List.mem_cons_of_mem c hx))
    rw [List.cons_append, splitCh, if_neg hc, heq]

/-- Reassembling the segments with the separator recovers the input. -/
theorem splitCh_reassemble (sep : Char) (l : List Char) :
    (List.intersperse [sep] (splitCh sep l)).flatten = l := by
  induction l with
  | nil => rfl
  | cons c rest ih =>
    rw [splitCh]
    split
    · rename_i hc
      cases h : splitCh sep rest with
      | nil => exact absurd h (splitCh_ne_nil sep rest)
      | cons s t =>
        rw [h] at ih
        simp_all [List.intersperse]
    · cases h : splitCh sep rest with
      | nil => exact absurd h (splitCh_ne_nil sep rest)
      | cons s t =>
        rw [h] at ih
        cases t with
        | nil => simp_all [List.intersperse]
        | cons s' t' => simp_all [List.intersperse]

/-- A three-segment split determines the shape of the original list. -/
theorem splitCh_three {sep : Char} {l a b c : List Char}
    (h : splitCh sep l = [a, b, c]) : l = a ++ sep :: b ++ sep :: c := by
  have := splitCh_reassemble sep l
  rw [h] at this
  simpa [List.intersperse] using this.symm

/-! ## The keystream / XOR layer of the AES-256-GCM model -/

theorem xor_lt_256 {a b : Nat} (ha : a < 256) (hb : b < 256) : a ^^^ b < 256 := by
  have ha8 : a < 2 ^ 8 := ha
  have hb8 : b < 2 ^ 8 := hb
  exact Nat.xor_lt_two_pow ha8 hb8

theorem ks_lt_256 (key iv : List Nat) (i : Nat) : ks key iv i < 256 :=
  Nat.mod_lt _ (by omega)

theorem ctrXor_ctrXor (f : Nat → Nat) (i : Nat) (bs : List Nat) :
    ctrXor f i (ctrXor f i bs) = bs := by
  induction bs generalizing i with
  | nil => rfl
  | cons b rest ih => simp [ctrXor, Nat.xor_cancel_right, ih]

theorem ctrXor_length (f : Nat → Nat) (i : Nat) (bs : List Nat) :
    (ctrXor f i bs).length = bs.length := by
  induction bs generalizing i with
  | nil => rfl
  | cons b rest ih => simp [ctrXor, ih]

theorem ctrXor_valid {f : Nat → Nat} (hf : ∀ i, f i < 256) {bs : List Nat}
    (hb : ValidBytes bs) (i : Nat) : ValidBytes (ctrXor f i bs) := by
  induction bs generalizing i with
  | nil => intro x hx; simp [ctrXor] at hx
  | cons b rest ih =>
    intro x hx
    rw [ctrXor] at hx
    rcases List.mem_cons.mp hx with rfl | hx
    · exact xor_lt_256 (hb b (List.mem_cons_self b rest)) (hf i)
    · exact ih (fun y hy => hb y (List.mem_cons_of_mem b hy)) (i + 1) x hx

theorem ctrXor_injOn (f : Nat → Nat) (i : Nat) {bs bs' : List Nat}
    (h : ctrXor f i bs = ctrXor f i bs') : bs = bs' := by
  rw [← ctrXor_ctrXor f i bs, h, ctrXor_ctrXor]

theorem natToBytes_length (len n : Nat) : (natToBytes len n).length = len := by
  induction len generalizing n with
  | zero => rfl
  | succ k ih => simp [natToBytes, ih]

theorem natToBytes_valid (len n : Nat) : ValidBytes (natToBytes len n) := by
  induction len generalizing n with
  | zero => intro x hx; simp [natToBytes] at hx
  | succ k ih =>
    intro x hx
    rw [natToBytes] at hx
    rcases List.mem_append.mp hx with hx | hx
    · exact ih (n / 256) x hx
    · simp at hx; omega

theorem natFromBytes_natToBytes (len n : Nat) (h : n < 256 ^ len) :
    natFromBytes (natToBytes len n) = n := by
  induction len generalizing n with
  | zero => simp at h; simp [natToBytes, natFromBytes, h]
  | succ k ih =>
    have hdiv : n / 256 < 256 ^ k := by
      rw [Nat.div_lt_iff_lt_mul (by omega)]
      calc n < 256 ^ (k + 1) := h
        _ = 256 ^ k * 256 := by ring
    rw [natToBytes]
    have hrec := ih (n / 256) hdiv
    simp only [natFromBytes, List.foldl_append] at hrec ⊢
    simp [hrec]
    omega

theorem natToBytes_injOn {len n m : Nat} (hn : n < 256 ^ len) (hm : m < 256 ^ len)
    (h : natToBytes len n = natToBytes len m) : n = m := by
  rw [← natFromBytes_natToBytes len n hn, ← natFromBytes_natToBytes len m hm, h]

theorem hKey_ne_zero (key : List Nat) : hKey key ≠ 0 := by
  rw [hKey]
  have h1 : mix key 17 % 256 + 1 < 257 := by
    have hm : mix key 17 % 256 < 256 := Nat.mod_lt _ (by omega)
    omega
  intro h
  have := ZMod.val_cast_of_lt h1
  rw [h, ZMod.val_zero] at this
  omega

theorem tagBytesOf_length (key iv ct : List Nat) : (tagBytesOf key iv ct).length = 16 :=
  natToBytes_length 16 _

theorem tagBytesOf_valid (key iv ct : List Nat) : ValidBytes (tagBytesOf key iv ct) :=
  natToBytes_valid 16 _

theorem tagBytesOf_injOn {key iv : List Nat} {ct ct' : List Nat}
    (h : tagField key iv ct ≠ tagField key iv ct') :
    tagBytesOf key iv ct ≠ tagBytesOf key iv ct' := by
  intro he
  apply h
  have hv : (tagField key iv ct).val = (tagField key iv ct').val :=
    natToBytes_injOn (lt_of_lt_of_le (ZMod.val_lt _) (by norm_num))
      (lt_of_lt_of_le (ZMod.val_lt _) (by norm_num)) he
  exact ZMod.val_injective 257 hv

/-- Changing one coefficient changes the polynomial MAC. -/
theorem polyMac_ne_of_single_change {h : ZMod 257} (hh : h ≠ 0)
    (a t : List Nat) {b b' : Nat} (hb : b < 257) (hb' : b' < 257) (hne : b ≠ b') :
    polyMac h (a ++ b :: t) ≠ polyMac h (a ++ b' :: t) := by
  induction a with
  | nil =>
    simp only [List.nil_append, polyMac]
    intro he
    have : (b : ZMod 257) = (b' : ZMod 257) := add_left_cancel he
    apply hne
    have hv := congrArg ZMod.val this
    rwa [ZMod.val_cast_of_lt hb, ZMod.val_cast_of_lt hb'] at hv
  | cons x a ih =>
    simp only [List.cons_append, polyMac]
    intro he
    have h1 : polyMac h (a ++ b :: t) * h = polyMac h (a ++ b' :: t) * h :=
      add_right_cancel he
    exact ih (mul_right_cancel₀ hh h1)

/-- Changing one ciphertext byte changes the tag field element. -/
theorem tagField_ne_of_single_change (key iv : List Nat) (a t : List Nat)
    {b b' : Nat} (hb : b < 257) (hb' : b' < 257) (hne : b ≠ b') :
    tagField key iv (a ++ b :: t) ≠ tagField key iv (a ++ b' :: t) := by
  have hlen : (a ++ b :: t).length = (a ++ b' :: t).length := by simp
  simp only [tagField, hlen]
  intro he
  have h1 := add_right_cancel (add_right_cancel he)
  exact polyMac_ne_of_single_change (hKey_ne_zero key) a t hb hb' hne
    (mul_right_cancel₀ (hKey_ne_zero key) h1)

/-! ## UTF-8 (Node's `'utf8'` string/Buffer conversions)

`cipher.update(plaintext, 'utf8')` encodes the string to UTF-8 bytes and
`decipher.update(…, 'hex', 'utf8')` decodes bytes back to a string,
emitting U+FFFD for invalid sequences rather than throwing. -/

theorem char_toNat_lt (c : Char) : c.toNat < 1114112 := by
  have h := c.valid
  show c.val.toNat < 1114112
  rcases h with h | h <;> omega

theorem utf8EncodeChar_valid (c : Char) : ValidBytes (utf8EncodeChar c) := by
  have hn := char_toNat_lt c
  intro x hx
  rw [utf8EncodeChar] at hx
  split at hx
  · simp at hx; omega
  · split at hx
    · simp at hx; rcases hx with rfl | rfl <;> omega
    · split at hx
      · simp at hx; rcases hx with rfl | rfl | rfl <;> omega
      · simp at hx; rcases hx with rfl | rfl | rfl | rfl <;> omega

theorem utf8EncodeChar_length_pos (c : Char) : 1 ≤ (utf8EncodeChar c).length := by
  rw [utf8EncodeChar]
  split
  · simp
  · split
    · simp
    · split <;> simp

theorem utf8Encode_valid (s : List Char) : ValidBytes (utf8Encode s) := by
  induction s with
  | nil => intro x hx; simp [utf8Encode] at hx
  | cons c t ih =>
    intro x hx
    simp only [utf8Encode, List.map_cons, List.flatten_cons] at hx
    rcases List.mem_append.mp hx with hx | hx
    · exact utf8EncodeChar_valid c x hx
    · exact ih x hx

theorem length_le_utf8Encode_length (s : List Char) :
    s.length ≤ (utf8Encode s).length := by
  induction s with
  | nil => simp [utf8Encode]
  | cons c t ih =>
    simp only [utf8Encode, List.map_cons, List.flatten_cons, List.length_cons,
      List.length_append]
    have := utf8EncodeChar_length_pos c
    have h2 : t.length ≤ (utf8Encode t).length := ih
    simp only [utf8Encode] at h2
    omega

theorem toNat_ofNat_valid {n : Nat} (h : n.isValidChar) : (Char.ofNat n).toNat = n := by
  rw [Char.ofNat, dif_pos h]
  rfl

theorem decSM_ascii {b : Nat} (h : b < 128) (l : List Nat) :
    utf8DecSM 0 0 (b :: l) = Char.ofNat b :: utf8DecSM 0 0 l := by
  rw [utf8DecSM, if_pos h]

theorem decSM_start2 {b : Nat} (h : 194 ≤ b ∧ b < 224) (l : List Nat) :
    utf8DecSM 0 0 (b :: l) = utf8DecSM 1 (b - 192) l := by
  rw [utf8DecSM, if_neg (by omega), if_pos h]

theorem decSM_start3 {b : Nat} (h : 224 ≤ b ∧ b < 240) (l : List Nat) :
    utf8DecSM 0 0 (b :: l) = utf8DecSM 2 (b - 224) l := by
  rw [utf8DecSM, if_neg (by omega), if_neg (by omega), if_pos h]

theorem decSM_start4 {b : Nat} (h : 240 ≤ b ∧ b < 245) (l : List Nat) :
    utf8DecSM 0 0 (b :: l) = utf8DecSM 3 (b - 240) l := by
  rw [utf8DecSM, if_neg (by omega), if_neg (by omega), if_neg (by omega), if_pos h]

theorem decSM_cont_last {b : Nat} (acc : Nat) (h : 128 ≤ b ∧ b < 192) (l : List Nat) :
    utf8DecSM 1 acc (b :: l) = Char.ofNat (acc * 64 + (b - 128)) :: utf8DecSM 0 0 l := by
  rw [utf8DecSM, if_pos h, if_pos rfl]

theorem decSM_cont_step {p b : Nat} (acc : Nat) (hp : p ≠ 0) (h : 128 ≤ b ∧ b < 192)
    (l : List Nat) :
    utf8DecSM (p + 1) acc (b :: l) = utf8DecSM p (acc * 64 + (b - 128)) l := by
  rw [utf8DecSM, if_pos h, if_neg hp]

/-- Decoding a UTF-8 encoded scalar at the head of a byte stream. -/
theorem utf8DecodeBytes_encodeChar (c : Char) (l : List Nat) :
    utf8DecodeBytes (utf8EncodeChar c ++ l) = c :: utf8DecodeBytes l := by
  have hn := char_toNat_lt c
  rw [utf8DecodeBytes, utf8DecodeBytes, utf8EncodeChar]
  by_cases h1 : c.toNat < 128
  · rw [if_pos h1, List.cons_append, List.nil_append, decSM_ascii h1, Char.ofNat_toNat]
  · rw [if_neg h1]
    by_cases h2 : c.toNat < 2048
    · rw [if_pos h2, List.cons_append, List.cons_append, List.nil_append,
        decSM_start2 (by omega), decSM_cont_last _ (by omega)]
      have hv : (192 + c.toNat / 64 - 192) * 64 + (128 + c.toNat % 64 - 128) = c.toNat := by
        omega
      rw [hv, Char.ofNat_toNat]
    · rw [if_neg h2]
      by_cases h3 : c.toNat < 65536
      · rw [if_pos h3, List.cons_append, List.cons_append, List.cons_append, List.nil_append,
          decSM_start3 (by omega), decSM_cont_step _ (by omega) (by omega),
          decSM_cont_last _ (by omega)]
        have hv : ((224 + c.toNat / 4096 - 224) * 64 + (128 + c.toNat / 64 % 64 - 128)) * 64 +
            (128 + c.toNat % 64 - 128) = c.toNat := by
          omega
        rw [hv, Char.ofNat_toNat]
      · rw [if_neg h3, List.cons_append, List.cons_append, List.cons_append, List.cons_append,
          List.nil_append, decSM_start4 (by omega), decSM_cont_step _ (by omega) (by omega),
          decSM_cont_step _ (by omega) (by omega), decSM_cont_last _ (by omega)]
        have hv : (((240 + c.toNat / 262144 - 240) * 64 + (128 + c.toNat / 4096 % 64 - 128)) * 64 +
            (128 + c.toNat / 64 % 64 - 128)) * 64 + (128 + c.toNat % 64 - 128) = c.toNat := by
          omega
        rw [hv, Char.ofNat_toNat]

/-- Round trip: UTF-8 decoding an encoded character list returns it. -/
theorem utf8DecodeBytes_utf8Encode (s : List Char) :
    utf8DecodeBytes (utf8Encode s) = s := by
  induction s with
  | nil => rfl
  | cons c t ih =>
    simp only [utf8Encode, List.map_cons, List.flatten_cons]
    rw [utf8DecodeBytes_encodeChar]
    simp only [utf8Encode] at ih
    rw [ih]

theorem utf8Encode_injOn {s s' : List Char} (h : utf8Encode s = utf8Encode s') :
    s = s' := by
  rw [← utf8DecodeBytes_utf8Encode s, h, utf8DecodeBytes_utf8Encode]

theorem utf8DecSM_length_le (l : List Nat) :
    ∀ p acc, (utf8DecSM p acc l).length ≤ l.length + 1 := by
  induction l with
  | nil =>
    intro p acc
    rw [utf8DecSM]
    split <;> simp
  | cons b rest ih =>
    intro p acc
    match p with
    | 0 =>
      rw [utf8DecSM]
      split_ifs <;> simp only [List.length_cons] <;>
        first
          | exact Nat.succ_le_succ (ih 0 0)
          | exact Nat.le_trans (ih _ _) (by omega)
    | q + 1 =>
      rw [utf8DecSM]
      split_ifs <;> simp only [List.length_cons] <;>
        first
          | exact Nat.succ_le_succ (ih 0 0)
          | exact Nat.le_trans (ih _ _) (by omega)

/-- Lossy decoding emits at most one character per input byte (plus a
final replacement for a truncated sequence). -/
theorem utf8DecodeBytes_length_le (l : List Nat) :
    (utf8DecodeBytes l).length ≤ l.length + 1 :=
  utf8DecSM_length_le l 0 0

/-! ## `src/utils/crypto.ts` -/

theorem stringMk_data (s : String) : String.mk s.data = s := rfl

theorem encrypt_data (key iv : List Nat) (s : String) :
    (encrypt key iv s).data =
      hexEncode iv ++ ':' ::
        (hexEncode (tagBytesOf key iv (ctrXor (ks key iv) 0 (utf8Encode s.data))) ++
          ':' :: hexEncode (ctrXor (ks key iv) 0 (utf8Encode s.data))) := rfl

/-- Splitting a well-shaped three-segment envelope. -/
theorem splitCh_envelope {a b c : List Char}
    (ha : ∀ x ∈ a, x ≠ ':') (hb : ∀ x ∈ b, x ≠ ':') (hc : ∀ x ∈ c, x ≠ ':') :
    splitCh ':' (a ++ ':' :: (b ++ ':' :: c)) = [a, b, c] := by
  rw [splitCh_append_sep _ ha, splitCh_append_sep _ hb, splitCh_of_not_mem hc]

theorem ctBytes_valid (key iv : List Nat) (s : String) :
    ValidBytes (ctrXor (ks key iv) 0 (utf8Encode s.data)) :=
  ctrXor_valid (ks_lt_256 key iv) (utf8Encode_valid s.data) 0

/-- Splitting the data of a genuine envelope yields its three segments. -/
theorem splitCh_encrypt (key iv : List Nat) (s : String) (hiv : ValidBytes iv) :
    splitCh ':' (encrypt key iv s).data =
      [hexEncode iv,
        hexEncode (tagBytesOf key iv (ctrXor (ks key iv) 0 (utf8Encode s.data))),
        hexEncode (ctrXor (ks key iv) 0 (utf8Encode s.data))] := by
  rw [encrypt_data]
  exact splitCh_envelope (mem_hexEncode_ne_colon hiv)
    (mem_hexEncode_ne_colon (tagBytesOf_valid _ _ _))
    (mem_hexEncode_ne_colon (ctBytes_valid key iv s))

/-- Evaluating `decrypt` on any input splitting into exactly three segments. -/
theorem decrypt_split3 {key : List Nat} {env : String} {a b c : List Char}
    (hsplit : splitCh ':' env.data = [a, b, c]) :
    decrypt key env =
      if hexDecodePairs b = tagBytesOf key (hexDecodePairs a) (hexDecodePairs c) then
        .ok (String.mk (utf8DecodeBytes (ctrXor (ks key (hexDecodePairs a)) 0 (hexDecodePairs c))))
      else .error .tamperedOrCorrupt := by
  unfold decrypt
  split
  · rename_i ivHex tagHex ctHex heq
    rw [heq] at hsplit
    injection hsplit with h1 hsplit
    injection hsplit with h2 hsplit
    injection hsplit with h3 _
    subst h1; subst h2; subst h3
    rfl
  · rename_i hne
    exact absurd hsplit (hne _ _ _)

/-- Authenticated round trip of the crypto layer. -/
theorem decrypt_encrypt (key iv : List Nat) (s : String) (hiv : ValidBytes iv) :
    decrypt key (encrypt key iv s) = .ok s := by
  rw [decrypt_split3 (splitCh_encrypt key iv s hiv)]
  rw [hexDecodePairs_hexEncode hiv, hexDecodePairs_hexEncode (tagBytesOf_valid key iv _),
    hexDecodePairs_hexEncode (ctBytes_valid key iv s)]
  rw [if_pos rfl, ctrXor_ctrXor, utf8DecodeBytes_utf8Encode, stringMk_data]

/-- A non-three-segment input is rejected as malformed. -/
theorem decrypt_invalidFormat {key : List Nat} {env : String}
    (h : (splitCh ':' env.data).length ≠ 3) :
    decrypt key env = .error .invalidFormat := by
  unfold decrypt
  split
  · rename_i heq
    rw [heq] at h
    simp at h
  · rfl

/-- A three-segment input whose decoded tag does not match the
recomputed tag is rejected as tampered. -/
theorem decrypt_tagMismatch {key : List Nat} {env : String} {a b c : List Char}
    (hsplit : splitCh ':' env.data = [a, b, c])
    (h : hexDecodePairs b ≠ tagBytesOf key (hexDecodePairs a) (hexDecodePairs c)) :
    decrypt key env = .error .tamperedOrCorrupt := by
  unfold decrypt
  split
  · rename_i ivHex tagHex ctHex heq
    rw [heq] at hsplit
    injection hsplit with h1 hsplit
    injection hsplit with h2 hsplit
    injection hsplit with h3 _
    subst h1; subst h2; subst h3
    rw [if_neg h]
  · rename_i hne
    exact absurd hsplit (hne a b c)

/-- Envelopes are strictly longer than their plaintexts (58 extra
characters plus one hex pair per byte), so `encrypt` never returns its
input unchanged and a decrypted value never equals the envelope. -/
theorem encrypt_length (key iv : List Nat) (s : String) :
    (encrypt key iv s).data.length =
      2 * iv.length + 34 + 2 * (utf8Encode s.data).length := by
  rw [encrypt_data]
  simp [hexEncode_length, ctrXor_length, tagBytesOf_length]
  omega

theorem encrypt_ne_plaintext (key iv : List Nat) (s : String) :
    encrypt key iv s ≠ s := by
  intro h
  have hlen : (encrypt key iv s).data.length = s.data.length :=
    congrArg (fun t : String => t.data.length) h
  rw [encrypt_length] at hlen
  have hle := length_le_utf8Encode_length s.data
  omega

theorem bks_lt_256 (salt : List Nat) (i : Nat) : bks salt i < 256 :=
  Nat.mod_lt _ (by omega)

theorem startsWithDollar2_bcryptHashModel (salt : List Nat) (pw : String) :
    startsWithDollar2 (bcryptHashModel salt pw) = true := rfl

theorem splitCh_bcryptHashModel (salt : List Nat) (pw : String) (hs : ValidBytes salt) :
    splitCh '$' (bcryptHashModel salt pw).data =
      [[], ['2', 'b'], ['1', '0'], hexEncode salt,
        hexEncode (ctrXor (bks salt) 0 (utf8Encode pw.data))] := by
  have hd : ∀ x ∈ hexEncode (ctrXor (bks salt) 0 (utf8Encode pw.data)), x ≠ '$' :=
    mem_hexEncode_ne_dollar (ctrXor_valid (bks_lt_256 salt) (utf8Encode_valid pw.data) 0)
  have hsx : ∀ x ∈ hexEncode salt, x ≠ '$' := mem_hexEncode_ne_dollar hs
  have h1 : ∀ x ∈ ([] : List Char), x ≠ '$' := by simp
  have h2 : ∀ x ∈ ['2', 'b'], x ≠ '$' := by decide
  have h3 : ∀ x ∈ ['1', '0'], x ≠ '$' := by decide
  show splitCh '$' (([] : List Char) ++ '$' :: (['2', 'b'] ++ '$' ::
    (['1', '0'] ++ '$' :: (hexEncode salt ++ '$' ::
      hexEncode (ctrXor (bks salt) 0 (utf8Encode pw.data)))))) = _
  rw [splitCh_append_sep _ h1, splitCh_append_sep _ h2, splitCh_append_sep _ h3,
    splitCh_append_sep _ hsx, splitCh_of_not_mem hd]

/-- A hash verifies the password it was produced from. -/
theorem bcryptCompare_hash_self (salt : List Nat) (pw : String) (hs : ValidBytes salt) :
    bcryptCompareModel pw (bcryptHashModel salt pw) = true := by
  rw [bcryptCompareModel, splitCh_bcryptHashModel salt pw hs]
  simp [hexDecodePairs_hexEncode hs]

/-- A hash verifies only the password it was produced from. -/
theorem bcryptCompare_hash_of_ne {salt : List Nat} {pw pw' : String} (hs : ValidBytes salt)
    (hne : pw' ≠ pw) :
    bcryptCompareModel pw' (bcryptHashModel salt pw) = false := by
  rw [bcryptCompareModel, splitCh_bcryptHashModel salt pw hs]
  simp only [hexDecodePairs_hexEncode hs, decide_eq_false_iff_not, not_and, true_implies,
    eq_self_iff_true]
  intro h
  apply hne
  have hb := ctrXor_injOn (bks salt) 0 (hexEncode_injOn
    (ctrXor_valid (bks_lt_256 salt) (utf8Encode_valid pw.data) 0)
    (ctrXor_valid (bks_lt_256 salt) (utf8Encode_valid pw'.data) 0) h)
  have hdata := utf8Encode_injOn hb
  calc pw' = String.mk pw'.data := rfl
    _ = String.mk pw.data := by rw [← hdata]
    _ = pw := rfl

/-- The hash is 40 characters longer than twice the byte length of the
password (salt and prefix), hence never equal to the password itself. -/
theorem bcryptHashModel_ne_plaintext (salt : List Nat) (pw : String) :
    bcryptHashModel salt pw ≠ pw := by
  intro h
  have hlen : (bcryptHashModel salt pw).data.length = pw.data.length :=
    congrArg (fun t : String => t.data.length) h
  have : (bcryptHashModel salt pw).data.length =
      7 + (hexEncode salt).length + 1 + (hexEncode (ctrXor (bks salt) 0 (utf8Encode pw.data))).length := by
    simp [bcryptHashModel]
    omega
  rw [this, hexEncode_length, hexEncode_length, ctrXor_length] at hlen
  have hle := length_le_utf8Encode_length pw.data
  omega

theorem cKey_valid : ValidBytes cKey := by
  intro b hb
  rw [cKey, List.mem_range] at hb
  omega

theorem cIv_valid : ValidBytes cIv := by
  intro b hb
  fin_cases hb <;> decide

theorem cIv2_valid : ValidBytes cIv2 := by
  intro b hb
  fin_cases hb <;> decide

theorem cSalt_valid : ValidBytes cSalt := by
  intro b hb
  fin_cases hb <;> decide

/-! ## Claim theorems -/

/-- C2: for every string `s` (including the empty string, non-ASCII
unicode strings, and long strings), decrypting the envelope produced by
encrypting `s` under the same key returns `s`:
`decrypt(encrypt(s)) == s`.  The 12 random IV bytes drawn inside
`encrypt` are the `iv` argument. -/
theorem claim_C2_encrypt_decrypt_roundtrip (key iv : List Nat) (s : String)
    (hiv : ValidBytes iv) (hlen : iv.length = 12) :
    decrypt key (encrypt key iv s) = .ok s :=
  decrypt_encrypt key iv s hiv

set_option maxRecDepth 40000 in
theorem claim_C2_witness :
    ValidBytes cIv ∧ cIv.length = 12 ∧
      decrypt cKey (encrypt cKey cIv "") = .ok "" ∧
        decrypt cKey (encrypt cKey cIv "ünïcødé ✓ тест") = .ok "ünïcødé ✓ тест" :=
  ⟨cIv_valid, rfl,
    claim_C2_encrypt_decrypt_roundtrip cKey cIv "" cIv_valid rfl,
    claim_C2_encrypt_decrypt_roundtrip cKey cIv "ünïcødé ✓ тест" cIv_valid rfl⟩

theorem encrypt_inj_iv {key iv1 iv2 : List Nat} {s1 s2 : String}
    (h1 : ValidBytes iv1) (h2 : ValidBytes iv2)
    (h : encrypt key iv1 s1 = encrypt key iv2 s2) : iv1 = iv2 := by
  have hd : (encrypt key iv1 s1).data = (encrypt key iv2 s2).data := congrArg String.data h
  have hs1 := splitCh_encrypt key iv1 s1 h1
  have hs2 := splitCh_encrypt key iv2 s2 h2
  rw [hd, hs2] at hs1
  injection hs1 with hhead _
  exact hexEncode_injOn h1 h2 hhead.symm

/-- C9: for every plaintext `s`, two calls to `encrypt s` that draw
different nonces produce different envelopes, while both envelopes
decrypt back to `s`. -/
theorem claim_C9_nonce_freshness (key iv1 iv2 : List Nat) (s : String)
    (h1 : ValidBytes iv1) (h2 : ValidBytes iv2)
    (hl1 : iv1.length = 12) (hl2 : iv2.length = 12) (hne : iv1 ≠ iv2) :
    encrypt key iv1 s ≠ encrypt key iv2 s ∧
      decrypt key (encrypt key iv1 s) = .ok s ∧
        decrypt key (encrypt key iv2 s) = .ok s :=
  ⟨fun h => hne (encrypt_inj_iv h1 h2 h),
    decrypt_encrypt key iv1 s h1, decrypt_encrypt key iv2 s h2⟩

set_option maxRecDepth 40000 in
theorem claim_C9_witness :
    (ValidBytes cIv ∧ ValidBytes cIv2 ∧ cIv.length = 12 ∧ cIv2.length = 12 ∧ cIv ≠ cIv2) ∧
      encrypt cKey cIv "token" ≠ encrypt cKey cIv2 "token" ∧
        decrypt cKey (encrypt cKey cIv "token") = .ok "token" ∧
          decrypt cKey (encrypt cKey cIv2 "token") = .ok "token" :=
  ⟨⟨cIv_valid, cIv2_valid, rfl, rfl, by decide⟩,
    claim_C9_nonce_freshness cKey cIv cIv2 "token" cIv_valid cIv2_valid rfl rfl (by decide)⟩

theorem runCreates_nil (key : List Nat) (db : DB) : runCreates key db [] = db := rfl

theorem runCreates_cons (key : List Nat) (db : DB) (c : CreateCall) (cs : List CreateCall) :
    runCreates key db (c :: cs) =
      runCreates key
        (match createAccount key c.salt c.iv c.now db c.data with
          | .ok (db', _) => db'
          | .error _ => db) cs := rfl

theorem createAccount_rows {key salt iv : List Nat} {now : Int} {db db' : DB}
    {data : CreateAccountData} {a : Account}
    (h : createAccount key salt iv now db data = .ok (db', a)) :
    db'.rows = db.rows ++
      [⟨db.nextId, data.email, encrypt key iv data.refreshToken, none, none,
        bcryptHashModel salt data.apiKey, now, now⟩] := by
  rw [createAccount] at h
  split at h
  · exact absurd h (by simp)
  · injection h with h
    injection h with h1 _
    rw [← h1]

/-- Every row produced by a sequence of creates carries the hashed key
and encrypted token of the call that inserted it. -/
theorem runCreates_invariant (key : List Nat) (calls : List CreateCall) :
    ∀ db row, row ∈ (runCreates key db calls).rows →
      row ∈ db.rows ∨
        ∃ c ∈ calls,
          row.email = c.data.email ∧
            row.api_key = bcryptHashModel c.salt c.data.apiKey ∧
              row.refresh_token = encrypt key c.iv c.data.refreshToken := by
  induction calls with
  | nil =>
    intro db row h
    exact Or.inl h
  | cons c cs ih =>
    intro db row h
    rw [runCreates_cons] at h
    rcases hc : createAccount key c.salt c.iv c.now db c.data with he | ⟨db', a⟩
    · rw [hc] at h
      rcases ih db row h with h | ⟨c', hc', hp⟩
      · exact Or.inl h
      · exact Or.inr ⟨c', List.mem_cons_of_mem c hc', hp⟩
    · rw [hc] at h
      rcases ih db' row h with h | ⟨c', hc', hp⟩
      · rw [createAccount_rows hc] at h
        rcases List.mem_append.mp h with h | h
        · exact Or.inl h
        · simp only [List.mem_singleton] at h
          subst h
          exact Or.inr ⟨c, List.mem_cons_self c cs, rfl, rfl, rfl⟩
      · exact Or.inr ⟨c', List.mem_cons_of_mem c hc', hp⟩

/-- C1: every row written by the account store's create operation
contains the bcrypt hash of the API key (never the plaintext key) and
the encrypted refresh token; after any sequence of create operations
starting from an empty store, no stored `refresh_token` equals the
plaintext refresh token that was passed in. -/
theorem claim_C1_create_hashes_and_encrypts (key : List Nat) (calls : List CreateCall)
    (row : Account) (hrow : row ∈ (runCreates key emptyDB calls).rows) :
    ∃ c ∈ calls,
      row.email = c.data.email ∧
        row.api_key = bcryptHashModel c.salt c.data.apiKey ∧
          startsWithDollar2 row.api_key = true ∧
            row.api_key ≠ c.data.apiKey ∧
              row.refresh_token = encrypt key c.iv c.data.refreshToken ∧
                row.refresh_token ≠ c.data.refreshToken := by
  rcases runCreates_invariant key calls emptyDB row hrow with h | ⟨c, hc, he, hk, hr⟩
  · simp [emptyDB] at h
  · refine ⟨c, hc, he, hk, ?_, ?_, hr, ?_⟩
    · rw [hk]
      exact startsWithDollar2_bcryptHashModel c.salt c.data.apiKey
    · rw [hk]
      exact bcryptHashModel_ne_plaintext c.salt c.data.apiKey
    · rw [hr]
      exact encrypt_ne_plaintext key c.iv c.data.refreshToken

set_option maxRecDepth 40000 in
theorem claim_C1_witness :
    ∃ c ∈ [CreateCall.mk ⟨"alice@example.com", "refresh-tok", "sk_abc"⟩ cSalt cIv 50],
      (Account.mk 1 "alice@example.com" (encrypt cKey cIv "refresh-tok") none none
          (bcryptHashModel cSalt "sk_abc") 50 50).email = c.data.email ∧
        (Account.mk 1 "alice@example.com" (encrypt cKey cIv "refresh-tok") none none
            (bcryptHashModel cSalt "sk_abc") 50 50).api_key =
          bcryptHashModel c.salt c.data.apiKey ∧
          startsWithDollar2 (Account.mk 1 "alice@example.com" (encrypt cKey cIv "refresh-tok")
              none none (bcryptHashModel cSalt "sk_abc") 50 50).api_key = true ∧
            (Account.mk 1 "alice@example.com" (encrypt cKey cIv "refresh-tok") none none
                (bcryptHashModel cSalt "sk_abc") 50 50).api_key ≠ c.data.apiKey ∧
              (Account.mk 1 "alice@example.com" (encrypt cKey cIv "refresh-tok") none none
                  (bcryptHashModel cSalt "sk_abc") 50 50).refresh_token =
                encrypt cKey c.iv c.data.refreshToken ∧
                (Account.mk 1 "alice@example.com" (encrypt cKey cIv "refresh-tok") none none
                    (bcryptHashModel cSalt "sk_abc") 50 50).refresh_token ≠
                  c.data.refreshToken :=
  claim_C1_create_hashes_and_encrypts cKey
    [CreateCall.mk ⟨"alice@example.com", "refresh-tok", "sk_abc"⟩ cSalt cIv 50]
    (Account.mk 1 "alice@example.com" (encrypt cKey cIv "refresh-tok") none none
      (bcryptHashModel cSalt "sk_abc") 50 50)
    (by rw [runCreates_cons]; decide)

/-- C10: for an account whose stored `api_key` does not begin with the
bcrypt marker `$2`, `verifyApiKey` accepts a candidate exactly when it
is string-equal to the stored value (legacy plain-text comparison). -/
theorem claim_C10_legacy_plaintext_compare (db : DB) (email apiKey : String) (a : Account)
    (hfind : getAccountByEmail db email = some a)
    (hlegacy : startsWithDollar2 a.api_key = false) :
    verifyApiKey db email apiKey = some a ↔ a.api_key = apiKey := by
  rw [verifyApiKey, hfind]
  simp only [hlegacy, Bool.false_eq_true, if_false]
  split
  · rename_i heq
    simp [heq]
  · rename_i hne
    simp [hne]

theorem claim_C10_witness :
    (verifyApiKey ⟨[⟨1, "l@x.com", "rt", none, none, "plain-key", 0, 0⟩], 2⟩ "l@x.com"
        "plain-key" = some ⟨1, "l@x.com", "rt", none, none, "plain-key", 0, 0⟩ ↔
      (Account.mk 1 "l@x.com" "rt" none none "plain-key" 0 0).api_key = "plain-key") ∧
      (verifyApiKey ⟨[⟨1, "l@x.com", "rt", none, none, "plain-key", 0, 0⟩], 2⟩ "l@x.com"
          "wrong" = some ⟨1, "l@x.com", "rt", none, none, "plain-key", 0, 0⟩ ↔
        (Account.mk 1 "l@x.com" "rt" none none "plain-key" 0 0).api_key = "wrong") :=
  ⟨claim_C10_legacy_plaintext_compare _ _ "plain-key" _ (by decide) (by decide),
    claim_C10_legacy_plaintext_compare _ _ "wrong" _ (by decide) (by decide)⟩

theorem findq_congr {α : Type} {p q : α → Bool} (h : ∀ a, p a = q a) :
    ∀ l : List α, l.find? p = l.find? q := by
  intro l
  induction l with
  | nil => rfl
  | cons a t ih => rw [List.find?_cons, List.find?_cons, h a, ih]

/-- The row `updateApiKey` leaves for the first account matching the
email: same account with its `api_key` replaced by the new hash. -/
theorem updateApiKey_ok (salt : List Nat) (now : Int) (db : DB) (email apiKey : String)
    (a : Account) (hfind : getAccountByEmail db email = some a) :
    ∃ db', updateApiKey salt now db email apiKey = .ok db' ∧
      getAccountByEmail db' email =
        some { a with api_key := bcryptHashModel salt apiKey, updated_at := now } := by
  have hmem := List.mem_of_find?_eq_some hfind
  have hemail : a.email = email := by
    have := List.find?_some hfind
    simpa using this
  rw [updateApiKey]
  have hall : ¬ db.rows.all (fun r => r.email ≠ email) = true := by
    simp only [List.all_eq_true]
    intro hno
    have := hno a hmem
    simp [hemail] at this
  rw [if_neg hall]
  refine ⟨_, rfl, ?_⟩
  rw [getAccountByEmail]
  show (db.rows.map (updApiKeyRow salt now email apiKey)).find? _ = _
  rw [List.find?_map]
  have hfun : ((fun r : Account => decide (r.email = email)) ∘ updApiKeyRow salt now email apiKey)
      = fun r : Account => decide (r.email = email) := by
    funext r
    by_cases hr : r.email = email
    · simp [updApiKeyRow, hr]
    · simp [updApiKeyRow, hr]
  rw [hfun]
  rw [getAccountByEmail] at hfind
  rw [hfind]
  simp [updApiKeyRow, hemail]

/-- C7: after `updateApiKey(email, newKey)` on an existing account,
`verifyApiKey(email, oldKey)` returns null and
`verifyApiKey(email, newKey)` returns the account — the previous key is
unverifiable immediately. -/
theorem claim_C7_regeneration_invalidates (db : DB) (email oldKey newKey : String)
    (salt : List Nat) (now : Int) (a : Account)
    (hsalt : ValidBytes salt) (hne : oldKey ≠ newKey)
    (hfind : getAccountByEmail db email = some a) :
    ∃ db', updateApiKey salt now db email newKey = .ok db' ∧
      verifyApiKey db' email oldKey = none ∧
        verifyApiKey db' email newKey =
          some { a with api_key := bcryptHashModel salt newKey, updated_at := now } := by
  rcases updateApiKey_ok salt now db email newKey a hfind with
    ⟨db', hup, hfind'⟩
  refine ⟨db', hup, ?_, ?_⟩
  · rw [verifyApiKey, hfind']
    simp only [startsWithDollar2_bcryptHashModel, if_true]
    rw [bcryptCompare_hash_of_ne hsalt hne]
    simp
  · rw [verifyApiKey, hfind']
    simp only [startsWithDollar2_bcryptHashModel, if_true]
    rw [bcryptCompare_hash_self salt newKey hsalt]
    simp

set_option maxRecDepth 40000 in
theorem claim_C7_witness :
    ∃ db', updateApiKey cSalt 9
        ⟨[⟨1, "bob@example.com", "rt", none, none, bcryptHashModel cSalt "sk_old", 0, 0⟩], 2⟩
        "bob@example.com" "sk_new" = .ok db' ∧
      verifyApiKey db' "bob@example.com" "sk_old" = none ∧
        verifyApiKey db' "bob@example.com" "sk_new" =
          some { Account.mk 1 "bob@example.com" "rt" none none (bcryptHashModel cSalt "sk_old") 0 0
              with api_key := bcryptHashModel cSalt "sk_new", updated_at := 9 } :=
  claim_C7_regeneration_invalidates
    ⟨[⟨1, "bob@example.com", "rt", none, none, bcryptHashModel cSalt "sk_old", 0, 0⟩], 2⟩
    "bob@example.com" "sk_old" "sk_new" cSalt 9
    ⟨1, "bob@example.com", "rt", none, none, bcryptHashModel cSalt "sk_old", 0, 0⟩
    cSalt_valid (by decide) (by decide)

theorem isEncrypted_encrypt (key iv : List Nat) (s : String)
    (hiv : ValidBytes iv) (hlen : iv.length = 12) :
    isEncrypted (encrypt key iv s) = true := by
  rw [isEncrypted]
  have hempty : ¬ (encrypt key iv s).data.isEmpty = true := by
    have := encrypt_length key iv s
    intro h
    rw [List.isEmpty_iff_length_eq_zero] at h
    omega
  rw [if_neg hempty, splitCh_encrypt key iv s hiv]
  simp [hexEncode_length, hlen]

theorem encrypt_ne_empty (key iv : List Nat) (s : String) : encrypt key iv s ≠ "" := by
  intro h
  have hlen : (encrypt key iv s).data.length = ("" : String).data.length :=
    congrArg (fun t : String => t.data.length) h
  rw [encrypt_length] at hlen
  simp at hlen

/-- Any successful `decrypt` output is strictly shorter than the
envelope it came from: the value is never the stored bytes themselves. -/
theorem decrypt_ok_ne {key : List Nat} {env v : String}
    (h : decrypt key env = .ok v) : v ≠ env := by
  rcases hsp : splitCh ':' env.data with _ | ⟨a, t⟩
  · exact absurd hsp (splitCh_ne_nil ':' env.data)
  · rcases t with _ | ⟨b, t⟩
    · rw [decrypt_invalidFormat (by rw [hsp]; simp)] at h
      exact absurd h (by simp)
    · rcases t with _ | ⟨c, t⟩
      · rw [decrypt_invalidFormat (by rw [hsp]; simp)] at h
        exact absurd h (by simp)
      · rcases t with _ | ⟨d, t⟩
        · rw [decrypt_split3 hsp] at h
          split at h
          · injection h with hv
            intro hveq
            have hlenv : v.data.length ≤ (hexDecodePairs c).length + 1 := by
              rw [← hv]
              exact utf8DecodeBytes_length_le _ |>.trans (by rw [ctrXor_length])
            have hct : (hexDecodePairs c).length ≤ c.length := hexDecodePairs_length_le c
            have henv : env.data.length = a.length + b.length + c.length + 2 := by
              rw [splitCh_three hsp]
              simp
              omega
            have : v.data.length = env.data.length := congrArg (fun t : String => t.data.length) hveq
            omega
          · exact absurd h (by simp)
        · rw [decrypt_invalidFormat (by rw [hsp]; simp)] at h
          exact absurd h (by simp)

/-- C4 counterexample: a stored value that is not a valid envelope is
returned as-is by both accessors, with no error — contradicting the
claim that a value that cannot be decrypted as a valid envelope always
raises a hard error and is never returned as-is. -/
theorem claim_C4_counterexample :
    isEncrypted "legacy-refresh-token" = false ∧
      getDecryptedRefreshToken cKey
          ⟨1, "l@x.com", "legacy-refresh-token", some "legacy-access", none, "k", 0, 0⟩ =
        .ok "legacy-refresh-token" ∧
        getDecryptedAccessToken cKey
            ⟨1, "l@x.com", "legacy-refresh-token", some "legacy-access", none, "k", 0, 0⟩ =
          .ok (some "legacy-access") :=
  ⟨rfl, rfl, rfl⟩

/-- C4 (amended): for stored values that pass the structural envelope
check, a decryption failure is a hard error and a decryption success
never returns the stored bytes; a value failing the structural check is
returned as-is (the deliberate legacy-plaintext fallback). -/
theorem claim_C4_decrypt_failure_policy :
    (∀ (key : List Nat) (account : Account),
      isEncrypted account.refresh_token = true →
        getDecryptedRefreshToken key account = decrypt key account.refresh_token ∧
          ∀ v, decrypt key account.refresh_token = .ok v → v ≠ account.refresh_token) ∧
      (∀ (key : List Nat) (account : Account) (t : String),
        account.access_token = some t → t ≠ "" → isEncrypted t = true →
          getDecryptedAccessToken key account = (decrypt key t).map some ∧
            ∀ v, decrypt key t = .ok v → v ≠ t) ∧
        (∀ (key : List Nat) (account : Account),
          isEncrypted account.refresh_token = false →
            getDecryptedRefreshToken key account = .ok account.refresh_token) := by
  refine ⟨?_, ?_, ?_⟩
  · intro key account henc
    exact ⟨by rw [getDecryptedRefreshToken, if_pos henc], fun v hv => decrypt_ok_ne hv⟩
  · intro key account t hacc hne henc
    refine ⟨?_, fun v hv => decrypt_ok_ne hv⟩
    rw [getDecryptedAccessToken, hacc]
    simp only [if_neg hne, henc, if_true, ite_true]
  · intro key account henc
    rw [getDecryptedRefreshToken, if_neg (by simp [henc])]

set_option maxRecDepth 40000 in
theorem claim_C4_witness :
    (isEncrypted (encrypt cKey cIv "rt") = true ∧
      getDecryptedRefreshToken cKey
          ⟨1, "a@x.com", encrypt cKey cIv "rt", none, none, "k", 0, 0⟩ =
        decrypt cKey (encrypt cKey cIv "rt")) ∧
      ("rt" : String) ≠ encrypt cKey cIv "rt" := by
  have h := (claim_C4_decrypt_failure_policy.1 cKey
    ⟨1, "a@x.com", encrypt cKey cIv "rt", none, none, "k", 0, 0⟩
    (isEncrypted_encrypt cKey cIv "rt" cIv_valid rfl))
  exact ⟨⟨isEncrypted_encrypt cKey cIv "rt" cIv_valid rfl, h.1⟩,
    h.2 "rt" (decrypt_encrypt cKey cIv "rt" cIv_valid)⟩

set_option maxRecDepth 100000 in
/-- C3 counterexample: the claim says an expiry at least 300 seconds in
the future returns the cached token without refreshing.  (a) With
exactly 300 seconds remaining (`expiry = now + 300`) the code refreshes
(the comparison is `now >= expiry - 300`).  (b) With 400 seconds
remaining but a cached token that decrypts to `""` (falsy in
JavaScript) the code also refreshes rather than returning the decrypted
cached token. -/
theorem claim_C3_counterexample :
    ((1300 : Int) - 1000 ≥ 300 ∧
      getValidAccessToken cKey 1000 ⟨[cAcct3a], 2⟩ "a@b.c" = .ok (.invokedRefresh "rt") ∧
        getValidAccessToken cKey 1000 ⟨[cAcct3a], 2⟩ "a@b.c" ≠ .ok (.usedCache "tok")) ∧
      ((1400 : Int) - 1000 ≥ 300 ∧ cAcct3b.access_token = some (encrypt cKey cIv "") ∧
        getValidAccessToken cKey 1000 ⟨[cAcct3b], 2⟩ "a@b.c" = .ok (.invokedRefresh "rt") ∧
          getValidAccessToken cKey 1000 ⟨[cAcct3b], 2⟩ "a@b.c" ≠ .ok (.usedCache "")) := by
  refine ⟨⟨by omega, rfl, ?_⟩, by omega, rfl, rfl, ?_⟩
  · intro h
    rw [show getValidAccessToken cKey 1000 ⟨[cAcct3a], 2⟩ "a@b.c" =
        .ok (.invokedRefresh "rt") from rfl] at h
    simp at h
  · intro h
    rw [show getValidAccessToken cKey 1000 ⟨[cAcct3b], 2⟩ "a@b.c" =
        .ok (.invokedRefresh "rt") from rfl] at h
    simp at h

/-- C3 (amended): with a cached access token present that decrypts to a
non-empty string, `getValidAccessToken` returns the decrypted cached
token without invoking the refresh collaborator when strictly more than
300 seconds remain (`now < expiry - 300`); when `now ≥ expiry - 300`
(at most 300 seconds remain) or the expiry is null, it decrypts the
stored refresh token and invokes the refresh collaborator instead. -/
theorem claim_C3_expiry_buffer :
    (∀ (key iv : List Nat) (now e : Int) (db : DB) (email t : String) (a : Account),
      ValidBytes iv → iv.length = 12 →
        getAccountByEmail db email = some a →
          a.access_token = some (encrypt key iv t) → t ≠ "" →
            a.token_expiry = some e → now < e - 300 →
              getValidAccessToken key now db email = .ok (.usedCache t)) ∧
      (∀ (key iv2 : List Nat) (now e : Int) (db : DB) (email rt : String) (a : Account),
        ValidBytes iv2 → iv2.length = 12 →
          getAccountByEmail db email = some a →
            a.refresh_token = encrypt key iv2 rt →
              a.token_expiry = some e → now ≥ e - 300 →
                getValidAccessToken key now db email = .ok (.invokedRefresh rt)) ∧
        (∀ (key iv2 : List Nat) (now : Int) (db : DB) (email rt : String) (a : Account),
          ValidBytes iv2 → iv2.length = 12 →
            getAccountByEmail db email = some a →
              a.refresh_token = encrypt key iv2 rt →
                a.token_expiry = none →
                  getValidAccessToken key now db email = .ok (.invokedRefresh rt)) := by
  refine ⟨?_, ?_, ?_⟩
  · intro key iv now e db email t a hiv hlen hfind hacc ht hexp hfresh
    rw [getValidAccessToken, hfind]
    have htr : truthyStr a.access_token = true := by
      rw [hacc]
      simp [truthyStr, encrypt_ne_empty]
    have hexpf : isTokenExpired now a.token_expiry = false := by
      rw [hexp, isTokenExpired]
      simp
      omega
    have hdec : getDecryptedAccessToken key a = .ok (some t) := by
      rw [getDecryptedAccessToken, hacc]
      simp [encrypt_ne_empty key iv t, isEncrypted_encrypt key iv t hiv hlen,
        decrypt_encrypt key iv t hiv, Except.map]
    simp [htr, hexpf, hdec, ht]
  · intro key iv2 now e db email rt a hiv hlen hfind hrt hexp hstale
    rw [getValidAccessToken, hfind]
    have hexpt : isTokenExpired now a.token_expiry = true := by
      rw [hexp, isTokenExpired]
      simp
      omega
    have hdec : getDecryptedRefreshToken key a = .ok rt := by
      rw [getDecryptedRefreshToken, hrt, isEncrypted_encrypt key iv2 rt hiv hlen]
      simp [decrypt_encrypt key iv2 rt hiv]
    simp [hexpt, hdec]
  · intro key iv2 now db email rt a hiv hlen hfind hrt hexp
    rw [getValidAccessToken, hfind]
    have hexpt : isTokenExpired now a.token_expiry = true := by
      rw [hexp, isTokenExpired]
    have hdec : getDecryptedRefreshToken key a = .ok rt := by
      rw [getDecryptedRefreshToken, hrt, isEncrypted_encrypt key iv2 rt hiv hlen]
      simp [decrypt_encrypt key iv2 rt hiv]
    simp [hexpt, hdec]

set_option maxRecDepth 100000 in
theorem claim_C3_witness :
    getValidAccessToken cKey 1000 ⟨[cAcct3c], 2⟩ "a@b.c" = .ok (.usedCache "tok") ∧
      getValidAccessToken cKey 1000 ⟨[cAcct3a], 2⟩ "a@b.c" = .ok (.invokedRefresh "rt") ∧
        getValidAccessToken cKey 1000
            ⟨[{ cAcct3a with token_expiry := none }], 2⟩ "a@b.c" =
          .ok (.invokedRefresh "rt") :=
  ⟨claim_C3_expiry_buffer.1 cKey cIv 1000 1400 ⟨[cAcct3c], 2⟩ "a@b.c" "tok" cAcct3c
      cIv_valid rfl rfl rfl (by decide) rfl (by omega),
    claim_C3_expiry_buffer.2.1 cKey cIv2 1000 1300 ⟨[cAcct3a], 2⟩ "a@b.c" "rt" cAcct3a
      cIv2_valid rfl rfl rfl rfl (by omega),
    claim_C3_expiry_buffer.2.2 cKey cIv2 1000 ⟨[{ cAcct3a with token_expiry := none }], 2⟩
      "a@b.c" "rt" { cAcct3a with token_expiry := none } cIv2_valid rfl rfl rfl rfl⟩

/-- C6: when the code exchange succeeds but the granted scope set lacks
the mail-send scope, the callback issues a revoke call for the new
access token, terminates as `missingScope`, and leaves the account
store untouched — and this holds whether or not the revocation HTTP
call succeeds, because `revokeToken` swallows its failures. -/
theorem claim_C6_missing_scope_revokes_and_rejects
    (key salt iv : List Nat) (now : Int) (newApiKey : String) (db : DB)
    (exchange : String → Except String TokenResponse)
    (getEmail : String → Except String String)
    (revokeOk : Bool) (code : String) (st : Option String) (tokens : TokenResponse)
    (hex : exchange code = .ok tokens)
    (hscope : strIncludes tokens.scope GMAIL_SEND_SCOPE = false) :
    handleCallback key salt iv now newApiKey db exchange getEmail revokeOk
        ⟨some code, none, st⟩ =
      ⟨.missingScope, [tokens.accessToken], db⟩ := by
  simp only [handleCallback]
  rw [hex]
  simp [hscope, revokeToken]

theorem claim_C6_witness :
    handleCallback cKey cSalt cIv 0 "sk_new" emptyDB
          (fun _ => .ok ⟨"at-1", "rt-1", 3600, "https://www.googleapis.com/auth/userinfo.email"⟩)
          (fun _ => .ok "alice@example.com") false ⟨some "C2", none, none⟩ =
        ⟨.missingScope, ["at-1"], emptyDB⟩ ∧
      handleCallback cKey cSalt cIv 0 "sk_new" emptyDB
          (fun _ => .ok ⟨"at-1", "rt-1", 3600, "https://www.googleapis.com/auth/userinfo.email"⟩)
          (fun _ => .ok "alice@example.com") true ⟨some "C2", none, none⟩ =
        ⟨.missingScope, ["at-1"], emptyDB⟩ :=
  ⟨claim_C6_missing_scope_revokes_and_rejects cKey cSalt cIv 0 "sk_new" emptyDB _ _ false "C2"
      none ⟨"at-1", "rt-1", 3600, "https://www.googleapis.com/auth/userinfo.email"⟩ rfl
      (by decide),
    claim_C6_missing_scope_revokes_and_rejects cKey cSalt cIv 0 "sk_new" emptyDB _ _ true "C2"
      none ⟨"at-1", "rt-1", 3600, "https://www.googleapis.com/auth/userinfo.email"⟩ rfl
      (by decide)⟩

theorem hexVal?_lt {c : Char} {v : Nat} (h : hexVal? c = some v) : v < 16 := by
  rw [hexVal?] at h
  split at h
  · injection h with h; omega
  · split at h
    · injection h with h; omega
    · split at h
      · injection h with h; omega
      · exact absurd h (by simp)

theorem set_ne_self {l : List Nat} {i b' : Nat} (hi : i < l.length) (hne : b' ≠ l.getD i 0) :
    l.set i b' ≠ l := by
  intro h
  apply hne
  have hgd : (l.set i b').getD i 0 = b' := by
    rw [List.getD_eq_getElem _ 0 (by simpa using hi)]
    exact List.getElem_set_self (by simpa using hi)
  rw [← hgd, h]

theorem set_eq_take_cons_drop (l : List Nat) :
    ∀ (i : Nat) (x : Nat), i < l.length →
      l.set i x = l.take i ++ x :: l.drop (i + 1) ∧
        l = l.take i ++ l.getD i 0 :: l.drop (i + 1) := by
  induction l with
  | nil => intro i x h; simp at h
  | cons a t ih =>
    intro i x h
    match i with
    | 0 => simp [List.set_cons_zero]
    | j + 1 =>
      have hj : j < t.length := by simp at h; omega
      obtain ⟨h1, h2⟩ := ih j x hj
      constructor
      · rw [List.set_cons_succ, h1]
        simp
      · show a :: t = a :: (t.take j ++ t.getD j 0 :: t.drop (j + 1))
        rw [← h2]

/-- Overwriting hex digit `j` of `hexEncode bs` with a hex digit of a
different value decodes to `bs` with byte `j / 2` changed. -/
theorem hexDecodePairs_set {bs : List Nat} (hv : ValidBytes bs) :
    ∀ (j : Nat) (c' : Char) (w v : Nat), j < 2 * bs.length →
      hexVal? c' = some w → hexVal? ((hexEncode bs).getD j ' ') = some v → w ≠ v →
      ∃ b', b' < 256 ∧ j / 2 < bs.length ∧ b' ≠ bs.getD (j / 2) 0 ∧
        hexDecodePairs ((hexEncode bs).set j c') = bs.set (j / 2) b' := by
  induction bs with
  | nil => intro j c' w v hj _ _ _; simp at hj
  | cons b rest ih =>
    have hb : b < 256 := hv b (List.mem_cons_self b rest)
    have hvr : ValidBytes rest := fun x hx => hv x (List.mem_cons_of_mem b hx)
    have hdiv : b / 16 < 16 := Nat.div_lt_of_lt_mul (by omega)
    have hmod : b % 16 < 16 := Nat.mod_lt b (by omega)
    intro j c' w v hj hw hval hne
    rw [hexEncode_cons] at hval ⊢
    match j with
    | 0 =>
      rw [List.getD_cons_zero, hexVal?_hexDigitChar hdiv] at hval
      injection hval with hval
      subst hval
      have hwlt := hexVal?_lt hw
      refine ⟨16 * w + b % 16, by omega, by simp, ?_, ?_⟩
      · intro hcontra
        rw [List.getD_cons_zero] at hcontra
        omega
      · rw [List.set_cons_zero, hexDecodePairs, hw, hexVal?_hexDigitChar hmod,
          hexDecodePairs_hexEncode hvr]
        rfl
    | 1 =>
      rw [List.getD_cons_succ, List.getD_cons_zero, hexVal?_hexDigitChar hmod] at hval
      injection hval with hval
      subst hval
      have hwlt := hexVal?_lt hw
      refine ⟨16 * (b / 16) + w, by omega, by simp, ?_, ?_⟩
      · intro hcontra
        rw [List.getD_cons_zero] at hcontra
        omega
      · rw [List.set_cons_succ, List.set_cons_zero, hexDecodePairs,
          hexVal?_hexDigitChar hdiv, hw, hexDecodePairs_hexEncode hvr]
        rfl
    | j + 2 =>
      rw [List.getD_cons_succ, List.getD_cons_succ] at hval
      have hj' : j < 2 * rest.length := by
        simp only [List.length_cons] at hj
        omega
      obtain ⟨b', hb1, hb2, hb3, hb4⟩ := ih hvr j c' w v hj' hw hval hne
      have hdiv2 : (j + 2) / 2 = j / 2 + 1 := by omega
      refine ⟨b', hb1, ?_, ?_, ?_⟩
      · simp only [List.length_cons]
        omega
      · rw [hdiv2, List.getD_cons_succ]
        exact hb3
      · rw [List.set_cons_succ, List.set_cons_succ, hexDecodePairs,
          hexVal?_hexDigitChar hdiv, hexVal?_hexDigitChar hmod, hb4, hdiv2,
          List.set_cons_succ]
        show (16 * (b / 16) + b % 16) :: rest.set (j / 2) b' = b :: rest.set (j / 2) b'
        rw [Nat.div_add_mod]

/-- Tampering with one ciphertext byte changes the 16-byte tag. -/
theorem tagBytesOf_set_ne (key iv : List Nat) {ct : List Nat} (hct : ValidBytes ct)
    {i b' : Nat} (hi : i < ct.length) (hb' : b' < 256) (hne : b' ≠ ct.getD i 0) :
    tagBytesOf key iv (ct.set i b') ≠ tagBytesOf key iv ct := by
  obtain ⟨hset, horig⟩ := set_eq_take_cons_drop ct i b' hi
  have hold : ct.getD i 0 < 256 := by
    have hmem : ct.getD i 0 ∈ ct := by
      rw [List.getD_eq_getElem ct 0 hi]
      exact List.getElem_mem hi
    exact hct _ hmem
  apply tagBytesOf_injOn
  rw [hset]
  conv_rhs => rw [horig]
  exact tagField_ne_of_single_change key iv (ct.take i) (ct.drop (i + 1))
    (by omega) (by omega) hne

/-- Altering one hex digit of the auth-tag segment (to a digit of a
different value) makes `decrypt` reject the envelope. -/
theorem decrypt_tag_tampered (key iv : List Nat) (s : String) (hiv : ValidBytes iv)
    (j : Nat) (c' : Char) (w v : Nat)
    (hj : j < (hexEncode (tagBytesOf key iv (ctrXor (ks key iv) 0 (utf8Encode s.data)))).length)
    (hw : hexVal? c' = some w)
    (hv : hexVal? ((hexEncode (tagBytesOf key iv
      (ctrXor (ks key iv) 0 (utf8Encode s.data)))).getD j ' ') = some v)
    (hne : w ≠ v) :
    decrypt key (String.mk (hexEncode iv ++ ':' ::
        ((hexEncode (tagBytesOf key iv (ctrXor (ks key iv) 0 (utf8Encode s.data)))).set j c' ++
          ':' :: hexEncode (ctrXor (ks key iv) 0 (utf8Encode s.data))))) =
      .error .tamperedOrCorrupt := by
  have hctv : ValidBytes (ctrXor (ks key iv) 0 (utf8Encode s.data)) := ctBytes_valid key iv s
  have htagv := tagBytesOf_valid key iv (ctrXor (ks key iv) 0 (utf8Encode s.data))
  have hsetfree : ∀ x ∈ (hexEncode (tagBytesOf key iv
      (ctrXor (ks key iv) 0 (utf8Encode s.data)))).set j c', x ≠ ':' := by
    intro x hx
    rcases List.mem_or_eq_of_mem_set hx with hx | rfl
    · exact mem_hexEncode_ne_colon htagv x hx
    · exact hexVal?_ne_colon hw
  have hsplit : splitCh ':' (String.mk (hexEncode iv ++ ':' ::
      ((hexEncode (tagBytesOf key iv (ctrXor (ks key iv) 0 (utf8Encode s.data)))).set j c' ++
        ':' :: hexEncode (ctrXor (ks key iv) 0 (utf8Encode s.data))))).data =
      [hexEncode iv,
        (hexEncode (tagBytesOf key iv (ctrXor (ks key iv) 0 (utf8Encode s.data)))).set j c',
        hexEncode (ctrXor (ks key iv) 0 (utf8Encode s.data))] :=
    splitCh_envelope (mem_hexEncode_ne_colon hiv) hsetfree (mem_hexEncode_ne_colon hctv)
  apply decrypt_tagMismatch hsplit
  rw [hexDecodePairs_hexEncode hiv, hexDecodePairs_hexEncode hctv]
  have hj' : j < 2 * (tagBytesOf key iv (ctrXor (ks key iv) 0 (utf8Encode s.data))).length := by
    rw [hexEncode_length] at hj
    exact hj
  obtain ⟨b', _, hlt, hneq, heq⟩ := hexDecodePairs_set htagv j c' w v hj' hw hv hne
  rw [heq]
  exact set_ne_self hlt hneq

/-- Altering one hex digit of the ciphertext segment (to a digit of a
different value) makes `decrypt` reject the envelope. -/
theorem decrypt_ct_tampered (key iv : List Nat) (s : String) (hiv : ValidBytes iv)
    (j : Nat) (c' : Char) (w v : Nat)
    (hj : j < (hexEncode (ctrXor (ks key iv) 0 (utf8Encode s.data))).length)
    (hw : hexVal? c' = some w)
    (hv : hexVal? ((hexEncode (ctrXor (ks key iv) 0 (utf8Encode s.data))).getD j ' ') = some v)
    (hne : w ≠ v) :
    decrypt key (String.mk (hexEncode iv ++ ':' ::
        (hexEncode (tagBytesOf key iv (ctrXor (ks key iv) 0 (utf8Encode s.data))) ++
          ':' :: (hexEncode (ctrXor (ks key iv) 0 (utf8Encode s.data))).set j c'))) =
      .error .tamperedOrCorrupt := by
  have hctv : ValidBytes (ctrXor (ks key iv) 0 (utf8Encode s.data)) := ctBytes_valid key iv s
  have htagv := tagBytesOf_valid key iv (ctrXor (ks key iv) 0 (utf8Encode s.data))
  have hsetfree : ∀ x ∈ (hexEncode (ctrXor (ks key iv) 0 (utf8Encode s.data))).set j c',
      x ≠ ':' := by
    intro x hx
    rcases List.mem_or_eq_of_mem_set hx with hx | rfl
    · exact mem_hexEncode_ne_colon hctv x hx
    · exact hexVal?_ne_colon hw
  have hsplit : splitCh ':' (String.mk (hexEncode iv ++ ':' ::
      (hexEncode (tagBytesOf key iv (ctrXor (ks key iv) 0 (utf8Encode s.data))) ++
        ':' :: (hexEncode (ctrXor (ks key iv) 0 (utf8Encode s.data))).set j c'))).data =
      [hexEncode iv,
        hexEncode (tagBytesOf key iv (ctrXor (ks key iv) 0 (utf8Encode s.data))),
        (hexEncode (ctrXor (ks key iv) 0 (utf8Encode s.data))).set j c'] :=
    splitCh_envelope (mem_hexEncode_ne_colon hiv) (mem_hexEncode_ne_colon htagv) hsetfree
  apply decrypt_tagMismatch hsplit
  rw [hexDecodePairs_hexEncode hiv, hexDecodePairs_hexEncode htagv]
  have hj' : j < 2 * (ctrXor (ks key iv) 0 (utf8Encode s.data)).length := by
    rw [hexEncode_length] at hj
    exact hj
  obtain ⟨b', hblt, hlt, hneq, heq⟩ := hexDecodePairs_set hctv j c' w v hj' hw hv hne
  rw [heq]
  exact Ne.symm (tagBytesOf_set_ne key iv hctv hlt hblt hneq)

set_option maxRecDepth 200000 in
/-- C8 counterexample: `decrypt` does not fail for *every* altered byte
of the auth-tag segment.  The genuine envelope for plaintext "tok" has
an auth-tag segment ending in `…cd`; replacing the byte `c` by `C` is
an alteration of one byte of the tag segment, yet Node's hex decoding
is case-insensitive, the tag still verifies, and `decrypt` succeeds. -/
theorem claim_C8_counterexample :
    encrypt cKey cIv "tok" =
        "000102030405060708090a0b:000000000000000000000000000000cd:b556da" ∧
      ("000102030405060708090a0b:000000000000000000000000000000Cd:b556da" : String) ≠
        "000102030405060708090a0b:000000000000000000000000000000cd:b556da" ∧
        decrypt cKey "000102030405060708090a0b:000000000000000000000000000000Cd:b556da" =
          .ok "tok" :=
  ⟨rfl, by decide, rfl⟩

/-- C8 (amended): `decrypt` fails with `invalidFormat` for every input
that does not split into exactly three colon-separated segments; and
for a genuine envelope, replacing any hex digit of the auth-tag segment
or of the ciphertext segment by a hex digit of a *different numeric
value* makes `decrypt` fail with `tamperedOrCorrupt`.  (An alteration
that only changes a hex digit's letter case decodes to the same byte
and decrypt succeeds, per the counterexample.) -/
theorem claim_C8_decrypt_rejects_malformed_and_tampered :
    (∀ (key : List Nat) (env : String), (splitCh ':' env.data).length ≠ 3 →
      decrypt key env = .error .invalidFormat) ∧
      (∀ (key iv : List Nat) (s : String), ValidBytes iv →
        ∀ (j : Nat) (c' : Char) (w v : Nat),
          j < (hexEncode (tagBytesOf key iv (ctrXor (ks key iv) 0 (utf8Encode s.data)))).length →
            hexVal? c' = some w →
              hexVal? ((hexEncode (tagBytesOf key iv
                (ctrXor (ks key iv) 0 (utf8Encode s.data)))).getD j ' ') = some v →
                w ≠ v →
                  decrypt key (String.mk (hexEncode iv ++ ':' ::
                    ((hexEncode (tagBytesOf key iv
                      (ctrXor (ks key iv) 0 (utf8Encode s.data)))).set j c' ++
                        ':' :: hexEncode (ctrXor (ks key iv) 0 (utf8Encode s.data))))) =
                    .error .tamperedOrCorrupt) ∧
        (∀ (key iv : List Nat) (s : String), ValidBytes iv →
          ∀ (j : Nat) (c' : Char) (w v : Nat),
            j < (hexEncode (ctrXor (ks key iv) 0 (utf8Encode s.data))).length →
              hexVal? c' = some w →
                hexVal? ((hexEncode (ctrXor (ks key iv) 0 (utf8Encode s.data))).getD j ' ') =
                    some v →
                  w ≠ v →
                    decrypt key (String.mk (hexEncode iv ++ ':' ::
                      (hexEncode (tagBytesOf key iv (ctrXor (ks key iv) 0 (utf8Encode s.data))) ++
                        ':' :: (hexEncode (ctrXor (ks key iv) 0 (utf8Encode s.data))).set j c'))) =
                      .error .tamperedOrCorrupt) :=
  ⟨fun _ _ h => decrypt_invalidFormat h,
    fun key iv s hiv j c' w v hj hw hv hne =>
      decrypt_tag_tampered key iv s hiv j c' w v hj hw hv hne,
    fun key iv s hiv j c' w v hj hw hv hne =>
      decrypt_ct_tampered key iv s hiv j c' w v hj hw hv hne⟩

set_option maxRecDepth 200000 in
theorem claim_C8_witness :
    decrypt cKey "not-an-envelope" = .error .invalidFormat ∧
      decrypt cKey (String.mk (hexEncode cIv ++ ':' ::
          ((hexEncode (tagBytesOf cKey cIv
            (ctrXor (ks cKey cIv) 0 (utf8Encode ("tok" : String).data)))).set 31 '0' ++
              ':' :: hexEncode (ctrXor (ks cKey cIv) 0 (utf8Encode ("tok" : String).data))))) =
        .error .tamperedOrCorrupt ∧
        decrypt cKey (String.mk (hexEncode cIv ++ ':' ::
            (hexEncode (tagBytesOf cKey cIv
              (ctrXor (ks cKey cIv) 0 (utf8Encode ("tok" : String).data))) ++
                ':' :: (hexEncode (ctrXor (ks cKey cIv) 0
                  (utf8Encode ("tok" : String).data))).set 0 '0'))) =
          .error .tamperedOrCorrupt :=
  ⟨claim_C8_decrypt_rejects_malformed_and_tampered.1 cKey "not-an-envelope" (by decide),
    claim_C8_decrypt_rejects_malformed_and_tampered.2.1 cKey cIv "tok" cIv_valid 31 '0' 0 13
      (by decide) (by decide) (by decide) (by decide),
    claim_C8_decrypt_rejects_malformed_and_tampered.2.2 cKey cIv "tok" cIv_valid 0 '0' 0 11
      (by decide) (by decide) (by decide) (by decide)⟩

end SmtpRelay
